import Mathlib

/-!
# Verification of the xv6 file-system layer (`kernel/fs.c`)

A shallow embedding of the low-level file-system routines of the repository's
`kernel/fs.c` (block allocator, inode cache release, extent mapper, content
I/O, directory operations, path resolution), together with theorems checking
the natural-language specification against the code.

Machine integers are modelled as `Nat`, with explicit `% 2^32` where the C
`uint` arithmetic can wrap.  Fallible / panicking code returns `Option` or a
dedicated result inductive with an explicit panic constructor.
-/

namespace Xv6

/-! ## Layout constants

Modelled from the spec: the header `fs.h` / `stat.h` defining these constants
is not part of the sources under `src/`; the values are the standard xv6 ones,
consistent with the spec's description (fixed block size, N direct addresses
plus one single-indirect block of 32-bit addresses, fixed-width directory
name field). -/

/-- Block size in bytes (`BSIZE`). -/
def BSIZE : Nat := 512

/-- Number of direct block addresses in an inode (`NDIRECT`). -/
def NDIRECT : Nat := 12

/-- Number of addresses in the single indirect block (`NINDIRECT = BSIZE / sizeof(uint)`). -/
def NINDIRECT : Nat := BSIZE / 4

/-- Maximum file size in blocks (`MAXFILE = NDIRECT + NINDIRECT`). -/
def MAXFILE : Nat := NDIRECT + NINDIRECT

/-- Bits per bitmap block (`BPB = BSIZE * 8`). -/
def BPB : Nat := BSIZE * 8

/-- Directory entry name field width in bytes (`DIRSIZ`). -/
def DIRSIZ : Nat := 14

/-- `sizeof(struct dirent)`: a `ushort` inode number plus `DIRSIZ` name bytes. -/
def direntSize : Nat := 16

/-- Inode type tag for directories (`T_DIR`). -/
def T_DIR : Nat := 1

/-- 2^32, the modulus of C `uint` arithmetic. -/
def U32 : Nat := 2 ^ 32

/-! ## Disk state

The on-disk state visible to the block allocator and the extent mapper /
truncation code: the device size (`sb.size`), the free bitmap (one bit per
block, reached through `BBLOCK`), and the 32-bit words of each block's data
(used for the indirect block). -/

/-- Mutable on-disk state seen by `balloc` / `bfree` / `bmap` / `itrunc`:
`size` is the superblock's total block count, `bits b` the bitmap bit of
block `b`, `words b i` the `i`-th 32-bit word of block `b`'s data. -/
structure Disk where
  size : Nat
  bits : Nat → Bool
  words : Nat → Nat → Nat

/-- Set the bitmap bit of block `b` (the `bp->data[bi/8] |= m; bwrite` step of `balloc`). -/
def Disk.setBit (d : Disk) (b : Nat) : Disk :=
  { d with bits := fun b' => if b' = b then true else d.bits b' }

/-- Clear the bitmap bit of block `b` (the `bp->data[bi/8] &= ~m; bwrite` step of `bfree`). -/
def Disk.clearBit (d : Disk) (b : Nat) : Disk :=
  { d with bits := fun b' => if b' = b then false else d.bits b' }

/-- `bzero(dev, bno)`: zero every data word of block `bno` and write it through. -/
def Disk.bzero (d : Disk) (b : Nat) : Disk :=
  { d with words := fun b' => if b' = b then fun _ => 0 else d.words b' }

/-- Store value `v` in word `i` of block `b` (the `a[bn] = addr; bwrite(bp)` step of `bmap`). -/
def Disk.setWord (d : Disk) (b i v : Nat) : Disk :=
  { d with words := fun b' => if b' = b then
      (fun i' => if i' = i then v else d.words b i') else d.words b' }

/-! ## Block allocator (`balloc`, `bfree`) -/

/-- The inner loop of `balloc` over one bitmap block, scanning `fuel` bits
starting at absolute block number `c`: return the first block whose bitmap
bit is clear.  (`for(bi = 0; bi < BPB; bi++)` with `c = b + bi`.) -/
def ballocGo (bits : Nat → Bool) (c : Nat) : Nat → Option Nat
  | 0 => none
  | fuel + 1 => if bits c = false then some c else ballocGo bits (c + 1) fuel

/-- The inner loop of `balloc` over one bitmap block: scan bits `bi = 0 .. BPB-1`
in order and return the first clear one. -/
def ballocInner (bits : Nat → Bool) (b : Nat) : Option Nat :=
  ballocGo bits b BPB

/-- The outer loop of `balloc`: `for(b = 0; b < sb.size; b += BPB)`, reading the
bitmap block covering `b` and scanning its bits; the first clear bit found is
the allocated block number. -/
def ballocScan (bits : Nat → Bool) (size b : Nat) : Option Nat :=
  if _h : b < size then
    match ballocInner bits b with
    | some r => some r
    | none => ballocScan bits size (b + BPB)
  else
    none
termination_by size - b
decreasing_by
  have hB : 0 < BPB := by decide
  omega

/-- `balloc(dev)`: scan bitmap blocks sequentially; mark the first clear bit in
use and return its block number.  `none` models `panic("balloc: out of blocks")`. -/
def balloc (d : Disk) : Option (Nat × Disk) :=
  match ballocScan d.bits d.size 0 with
  | some b => some (b, d.setBit b)
  | none => none

/-- `bfree(dev, b)`: zero the block's content (`bzero`), then clear its bitmap
bit.  `none` models `panic("freeing free block")` when the bit was already clear. -/
def bfree (d : Disk) (b : Nat) : Option Disk :=
  let d1 := d.bzero b
  if d1.bits b = false then none
  else some (d1.clearBit b)

/-! ### Properties of the block-allocator scan -/

theorem ballocGo_some (bits : Nat → Bool) :
    ∀ fuel c r, ballocGo bits c fuel = some r →
      bits r = false ∧ c ≤ r ∧ r < c + fuel ∧ ∀ x, c ≤ x → x < r → bits x = true := by
  intro fuel
  induction fuel with
  | zero => intro c r h; simp [ballocGo] at h
  | succ n ih =>
    intro c r h
    rw [ballocGo] at h
    by_cases hc : bits c = false
    · simp [hc] at h
      subst h
      exact ⟨hc, le_refl _, by omega, fun x hx1 hx2 => by omega⟩
    · simp [hc] at h
      obtain ⟨hr, hcr, hrlt, hall⟩ := ih (c + 1) r h
      refine ⟨hr, by omega, by omega, ?_⟩
      intro x hx1 hx2
      by_cases hxc : x = c
      · subst hxc; simpa using hc
      · exact hall x (by omega) hx2

theorem ballocGo_none (bits : Nat → Bool) :
    ∀ fuel c, ballocGo bits c fuel = none → ∀ x, c ≤ x → x < c + fuel → bits x = true := by
  intro fuel
  induction fuel with
  | zero => intro c _ x hx1 hx2; omega
  | succ n ih =>
    intro c h x hx1 hx2
    rw [ballocGo] at h
    by_cases hc : bits c = false
    · simp [hc] at h
    · simp [hc] at h
      by_cases hxc : x = c
      · subst hxc; simpa using hc
      · exact ih (c + 1) h x (by omega) (by omega)

theorem ballocScan_some (bits : Nat → Bool) (size : Nat) :
    ∀ n b0 b, size - b0 ≤ n → ballocScan bits size b0 = some b →
      bits b = false ∧ b0 ≤ b ∧ ∀ x, b0 ≤ x → x < b → bits x = true := by
  intro n
  induction n with
  | zero =>
    intro b0 b hn h
    rw [ballocScan] at h
    have : ¬ b0 < size := by omega
    simp [this] at h
  | succ n ih =>
    intro b0 b hn h
    rw [ballocScan] at h
    by_cases hlt : b0 < size
    · simp [hlt] at h
      rcases hin : ballocInner bits b0 with _ | r
      · rw [hin] at h
        have hBPB : 0 < BPB := by decide
        obtain ⟨h1, h2, h3⟩ := ih (b0 + BPB) b (by omega) h
        refine ⟨h1, by omega, ?_⟩
        intro x hx1 hx2
        by_cases hxB : x < b0 + BPB
        · exact ballocGo_none bits BPB b0 hin x hx1 hxB
        · exact h3 x (by omega) hx2
      · rw [hin] at h
        simp at h
        subst h
        obtain ⟨h1, h2, _, h4⟩ := ballocGo_some bits BPB b0 r hin
        exact ⟨h1, h2, fun x hx1 hx2 => h4 x hx1 hx2⟩
    · simp [hlt] at h

/-- Claim C7: on an otherwise-idle device, `balloc`; `bfree` of the returned
block; `balloc` again returns the same block number.  The first `balloc`
returns the first clear bitmap bit (first-fit) and sets it; `bfree` zeroes the
block's content and clears exactly that bit, restoring the original bitmap, so
the second `balloc` scan returns the same block. -/
theorem balloc_bfree_balloc (d : Disk) (b : Nat) (d1 : Disk)
    (h : balloc d = some (b, d1)) :
    d.bits b = false ∧ (∀ x, x < b → d.bits x = true) ∧ d1 = d.setBit b ∧
    ∃ d2, bfree d1 b = some d2 ∧ d2.bits = d.bits ∧ (∀ i, d2.words b i = 0) ∧
      balloc d2 = some (b, d2.setBit b) := by
  unfold balloc at h
  rcases hs : ballocScan d.bits d.size 0 with _ | r
  · rw [hs] at h; exact absurd h (by simp)
  rw [hs] at h
  simp only [Option.some.injEq, Prod.mk.injEq] at h
  obtain ⟨rfl, rfl⟩ := h
  obtain ⟨hclear, -, hfirst⟩ := ballocScan_some d.bits d.size d.size 0 r (by omega) hs
  have hbits : (((d.setBit r).bzero r).clearBit r).bits = d.bits := by
    funext b'
    by_cases hb' : b' = r
    · subst hb'; simp [Disk.clearBit, Disk.bzero, Disk.setBit, hclear]
    · simp [Disk.clearBit, Disk.bzero, Disk.setBit, hb']
  refine ⟨hclear, fun x hx => hfirst x (by omega) hx, rfl, ?_⟩
  refine ⟨((d.setBit r).bzero r).clearBit r, ?_, hbits, ?_, ?_⟩
  · simp [bfree, Disk.bzero, Disk.setBit]
  · intro i; simp [Disk.clearBit, Disk.bzero]
  · have hsize : (((d.setBit r).bzero r).clearBit r).size = d.size := rfl
    unfold balloc
    rw [hbits, hsize, hs]

/-- A tiny concrete device used to instantiate theorems with hypotheses:
8 blocks, every bitmap bit clear, every data word 0. -/
def witnessDisk : Disk := ⟨8, fun _ => false, fun _ _ => 0⟩

/-- `balloc` on the all-free witness disk returns block 0. -/
theorem balloc_witnessDisk : balloc witnessDisk = some (0, witnessDisk.setBit 0) := by
  unfold balloc
  have h1 : ballocScan witnessDisk.bits witnessDisk.size 0 = some 0 := by
    rw [ballocScan]
    have hlt : (0 : Nat) < witnessDisk.size := by norm_num [witnessDisk]
    have hin : ballocInner witnessDisk.bits 0 = some 0 := by
      show ballocGo witnessDisk.bits 0 (4095 + 1) = some 0
      rw [ballocGo]
      simp [witnessDisk]
    simp [hlt, hin]
  rw [h1]

/-- Witness for `balloc_bfree_balloc` at the concrete all-free disk. -/
theorem balloc_bfree_balloc_witness :
    witnessDisk.bits 0 = false ∧ (∀ x, x < 0 → witnessDisk.bits x = true) ∧
    witnessDisk.setBit 0 = witnessDisk.setBit 0 ∧
    ∃ d2, bfree (witnessDisk.setBit 0) 0 = some d2 ∧ d2.bits = witnessDisk.bits ∧
      (∀ i, d2.words 0 i = 0) ∧ balloc d2 = some (0, d2.setBit 0) :=
  balloc_bfree_balloc witnessDisk 0 (witnessDisk.setBit 0) balloc_witnessDisk

/-! ## Extent mapper (`bmap`)

`bmap(ip, bn)` returns the disk block address of the `bn`-th logical block of
an inode, allocating one if absent.  The inode's contribution is its address
array `ip->addrs` (`NDIRECT` direct slots plus one indirect slot), modelled as
a `List Nat`; the indirect block's entries live in `Disk.words`. -/

/-- Result of `bmap`: a fatal `panic(msg)`, or the mapped physical block
address together with the updated inode address array and disk state. -/
inductive BmapRes where
  | panic (msg : String)
  | ok (addr : Nat) (addrs : List Nat) (d : Disk)

/-- Whether a `bmap` result is a fatal halt. -/
def BmapRes.isPanic : BmapRes → Bool
  | .panic _ => true
  | .ok _ _ _ => false

/-- `bmap`: direct range returns (or allocates into) `addrs[bn]`; otherwise the
single-indirect range lazily allocates the indirect block and the target entry
within it; any index beyond `NDIRECT + NINDIRECT` is `panic("bmap: out of range")`. -/
def bmap (addrs : List Nat) (d : Disk) (bn : Nat) : BmapRes :=
  if bn < NDIRECT then
    let addr := addrs.getD bn 0
    if addr = 0 then
      match balloc d with
      | none => .panic "balloc: out of blocks"
      | some (a, d') => .ok a (addrs.set bn a) d'
    else .ok addr addrs d
  else
    let bn' := bn - NDIRECT
    if bn' < NINDIRECT then
      match (if addrs.getD NDIRECT 0 = 0 then
               match balloc d with
               | none => none
               | some (a, d') => some (a, addrs.set NDIRECT a, d')
             else some (addrs.getD NDIRECT 0, addrs, d)) with
      | none => .panic "balloc: out of blocks"
      | some (ind, addrs1, d1) =>
        let addr := d1.words ind bn'
        if addr = 0 then
          match balloc d1 with
          | none => .panic "balloc: out of blocks"
          | some (a, d2) => .ok a addrs1 (d2.setWord ind bn' a)
        else .ok addr addrs1 d1
    else .panic "bmap: out of range"

/-- Counterexample to claim C2: at the first logical block index beyond the
direct-plus-indirect capacity, `bmap` is a fatal halt (`panic`), not a
recoverable caller-reported failure. -/
theorem bmap_out_of_range_cex :
    (bmap (List.replicate (NDIRECT + 1) 0) witnessDisk (NDIRECT + NINDIRECT)).isPanic
      = true := by
  decide

/-- Claim C2 (amended): for every inode address array, disk state, and logical
block index at or beyond `NDIRECT + NINDIRECT`, `bmap` halts fatally with
`panic("bmap: out of range")` rather than returning a recoverable failure
result. -/
theorem bmap_out_of_range_panics (addrs : List Nat) (d : Disk) (bn : Nat)
    (h : NDIRECT + NINDIRECT ≤ bn) :
    bmap addrs d bn = .panic "bmap: out of range" := by
  unfold bmap
  have h1 : ¬ bn < NDIRECT := by
    have : (NDIRECT : Nat) ≤ NDIRECT + NINDIRECT := Nat.le_add_right _ _
    omega
  have h2 : ¬ bn - NDIRECT < NINDIRECT := by
    have hN : NDIRECT + NINDIRECT = 140 := by decide
    omega
  simp [h1, h2]

/-- Witness for `bmap_out_of_range_panics` at a concrete input. -/
theorem bmap_out_of_range_panics_witness :
    bmap (List.replicate (NDIRECT + 1) 0) witnessDisk 140 = .panic "bmap: out of range" :=
  bmap_out_of_range_panics (List.replicate (NDIRECT + 1) 0) witnessDisk 140 (by decide)

/-! ## Content I/O (`readi`, `writei`)

The non-device branches of `readi` / `writei`.  (The `T_DEV` branch delegates
to the external `devsw` dispatch table, an out-of-scope collaborator per the
spec, so the model covers exactly the regular-file/directory path the claims
are about.)  The inode's content is viewed through its byte size and the byte
at each content offset; the byte at offset `o` lives at offset `o % BSIZE` of
block `bmap(ip, o / BSIZE)`, and the copy loops below walk it in exactly the
source's per-block chunks. -/

/-- Content view of a non-device inode: byte size and byte content. -/
structure CInode where
  size : Nat
  data : Nat → Nat

/-- The copy loop of `readi`: `for(tot=0; tot<n; tot+=m, off+=m, dst+=m)` with
`m = min(n - tot, BSIZE - off % BSIZE)`; each iteration copies `m` bytes out
of the block holding offset `off`.  `n` here is the remaining count `n - tot`. -/
def readLoop (data : Nat → Nat) (off n : Nat) : List Nat :=
  if _h : n = 0 then []
  else
    ((List.range (min n (BSIZE - off % BSIZE))).map fun k => data (off + k)) ++
      readLoop data (off + min n (BSIZE - off % BSIZE))
        (n - min n (BSIZE - off % BSIZE))
termination_by n
decreasing_by
  have h1 : off % BSIZE < BSIZE := Nat.mod_lt _ (by decide)
  omega

/-- The copy loop of `writei`: like `readLoop` but writing `m` bytes from the
source into the block holding offset `off`; `s` is the index already consumed
from the source (`src += m`). -/
def writeLoop (data src : Nat → Nat) (off n s : Nat) : Nat → Nat :=
  if _h : n = 0 then data
  else
    writeLoop
      (fun a => if off ≤ a ∧ a < off + min n (BSIZE - off % BSIZE) then
          src (s + (a - off)) else data a)
      src (off + min n (BSIZE - off % BSIZE)) (n - min n (BSIZE - off % BSIZE))
      (s + min n (BSIZE - off % BSIZE))
termination_by n
decreasing_by
  have h1 : off % BSIZE < BSIZE := Nat.mod_lt _ (by decide)
  omega

/-- Splitting a mapped range at `m`. -/
theorem range_map_split (f : Nat → Nat) (m n : Nat) (h : m ≤ n) :
    (List.range n).map f =
      (List.range m).map f ++ (List.range (n - m)).map fun k => f (m + k) := by
  conv_lhs => rw [show n = m + (n - m) by omega]
  rw [List.range_add, List.map_append, List.map_map]
  rfl

/-- The chunked read loop gathers exactly the `n` content bytes from `off`. -/
theorem readLoop_eq (data : Nat → Nat) : ∀ n off,
    readLoop data off n = (List.range n).map fun k => data (off + k) := by
  intro n
  induction n using Nat.strong_induction_on with
  | _ n ih =>
    intro off
    rw [readLoop]
    split
    · rename_i h; simp [h]
    · rename_i h
      have h1 : off % BSIZE < BSIZE := Nat.mod_lt _ (by decide)
      set m := min n (BSIZE - off % BSIZE) with hm
      rw [ih (n - m) (by omega) (off + m),
        range_map_split (fun k => data (off + k)) m n (by omega)]
      simp only [Nat.add_assoc]

/-- The chunked write loop performs exactly the pointwise range update. -/
theorem writeLoop_eq (src : Nat → Nat) : ∀ n data off s,
    writeLoop data src off n s =
      fun a => if off ≤ a ∧ a < off + n then src (s + (a - off)) else data a := by
  intro n
  induction n using Nat.strong_induction_on with
  | _ n ih =>
    intro data off s
    rw [writeLoop]
    split
    · rename_i h
      funext a
      rw [if_neg (by omega)]
    · rename_i h
      have h1 : off % BSIZE < BSIZE := Nat.mod_lt _ (by decide)
      set m := min n (BSIZE - off % BSIZE) with hm
      rw [ih (n - m) (by omega)]
      funext a
      by_cases c1 : off + m ≤ a ∧ a < off + m + (n - m)
      · rw [if_pos c1, if_pos (show off ≤ a ∧ a < off + n by omega)]
        congr 1
        omega
      · rw [if_neg c1]
        by_cases c3 : off ≤ a ∧ a < off + m
        · rw [if_pos c3, if_pos (show off ≤ a ∧ a < off + n by omega)]
        · rw [if_neg c3, if_neg (show ¬(off ≤ a ∧ a < off + n) by omega)]

/-- `readi(ip, dst, off, n)`, non-device branch: fail on `off > ip->size` or on
wrap-around of the `uint` sum `off + n`; clamp `n` to `ip->size - off`; copy the
clamped count of bytes block by block.  Returns the count and the copied bytes;
`none` models the `-1` failure return. -/
def readi (ip : CInode) (off n : Nat) : Option (Nat × List Nat) :=
  if ip.size < off ∨ (off + n) % U32 < off then none
  else
    some (if ip.size < (off + n) % U32 then ip.size - off else n,
      readLoop ip.data off (if ip.size < (off + n) % U32 then ip.size - off else n))

/-- The tail of `writei` after the clamp, for the already-clamped count `n`:
the copy loop followed by the size-extension check
(`if(n > 0 && off > ip->size){ip->size = off; iupdate(ip);}`, where the final
`off` is the original offset plus the clamped count). -/
def writeiTail (ip : CInode) (src : Nat → Nat) (off n : Nat) :
    Option (Nat × CInode × Bool) :=
  if 0 < n ∧ ip.size < off + n then
    some (n, ⟨off + n, writeLoop ip.data src off n 0⟩, true)
  else
    some (n, ⟨ip.size, writeLoop ip.data src off n 0⟩, false)

/-- `writei(ip, src, off, n)`, non-device branch: fail on `off > ip->size` or on
wrap-around of `off + n`; clamp `n` to `MAXFILE*BSIZE - off` (computed in `uint`
arithmetic); then `writeiTail`: write block by block and, if the final offset
passed the old size and at least one byte was written, set the new size and
persist (`iupdate`).  Returns the count, the updated inode, and whether
`iupdate` was called. -/
def writei (ip : CInode) (src : Nat → Nat) (off n : Nat) :
    Option (Nat × CInode × Bool) :=
  if ip.size < off ∨ (off + n) % U32 < off then none
  else
    writeiTail ip src off
      (if MAXFILE * BSIZE < (off + n) % U32 then
        (MAXFILE * BSIZE + U32 - off) % U32 else n)

/-- `uint` wrap detection: for `off, n < 2^32`, the C test `off + n < off`
(on the wrapped sum) holds exactly when the true sum reaches `2^32`. -/
theorem u32_wrap_iff (off n : Nat) (_hoff : off < U32) (hn : n < U32) :
    ((off + n) % U32 < off) ↔ U32 ≤ off + n := by
  by_cases h : off + n < U32
  · rw [Nat.mod_eq_of_lt h]; omega
  · have h2 : (off + n) % U32 = off + n - U32 := by
      rw [Nat.mod_eq_sub_mod (by omega), Nat.mod_eq_of_lt (by omega)]
    rw [h2]
    omega

/-- Core characterization of a non-failing `writei`: count clamped to
`min n (MAXFILE*BSIZE - off)`, content updated pointwise on the written range,
size extended and persisted exactly when the write passes the old size. -/
theorem writei_some (ip : CInode) (src : Nat → Nat) (off n : Nat)
    (hsz : ip.size ≤ MAXFILE * BSIZE) (h1 : off ≤ ip.size) (h2 : off + n < U32) :
    writei ip src off n =
      some (min n (MAXFILE * BSIZE - off),
        ⟨if ip.size < off + min n (MAXFILE * BSIZE - off) then
            off + min n (MAXFILE * BSIZE - off) else ip.size,
          fun a => if off ≤ a ∧ a < off + min n (MAXFILE * BSIZE - off) then
            src (a - off) else ip.data a⟩,
        decide (ip.size < off + min n (MAXFILE * BSIZE - off))) := by
  have hMF : MAXFILE * BSIZE < U32 := by decide
  have hoffM : off ≤ MAXFILE * BSIZE := le_trans h1 hsz
  have hmod : (off + n) % U32 = off + n := Nat.mod_eq_of_lt h2
  unfold writei
  rw [if_neg (by rw [hmod]; omega)]
  have hn' : (if MAXFILE * BSIZE < (off + n) % U32 then
      (MAXFILE * BSIZE + U32 - off) % U32 else n) = min n (MAXFILE * BSIZE - off) := by
    rw [hmod]
    by_cases hc : MAXFILE * BSIZE < off + n
    · rw [if_pos hc, show MAXFILE * BSIZE + U32 - off = U32 + (MAXFILE * BSIZE - off) by omega,
        Nat.add_mod_left, Nat.mod_eq_of_lt (by omega)]
      omega
    · rw [if_neg hc]; omega
  rw [hn']
  unfold writeiTail
  by_cases hcond : ip.size < off + min n (MAXFILE * BSIZE - off)
  · rw [if_pos ⟨by omega, hcond⟩, writeLoop_eq, if_pos hcond]
    simp [hcond]
  · rw [if_neg (fun hh => hcond hh.2), writeLoop_eq, if_neg hcond]
    simp [hcond]

/-- Claim C3: for a non-device inode (whose size respects the maximum-file-size
invariant), `writei` fails with the negative result iff the offset exceeds the
current size or the `uint` sum `off + n` overflows; otherwise it returns the
count clamped so that `off + count` never exceeds `MAXFILE * BSIZE` (a write
truncated at the maximum size is reported via the returned count, not as an
error), and it updates and persists the size exactly when the write extends
past the previous size. -/
theorem writei_spec (ip : CInode) (src : Nat → Nat) (off n : Nat)
    (hoff : off < U32) (hn : n < U32) (hsz : ip.size ≤ MAXFILE * BSIZE) :
    (writei ip src off n = none ↔ (ip.size < off ∨ U32 ≤ off + n)) ∧
    (off ≤ ip.size → off + n < U32 →
      ∃ n', n' = min n (MAXFILE * BSIZE - off) ∧ off + n' ≤ MAXFILE * BSIZE ∧
        writei ip src off n =
          some (n', ⟨if ip.size < off + n' then off + n' else ip.size,
            fun a => if off ≤ a ∧ a < off + n' then src (a - off) else ip.data a⟩,
            decide (ip.size < off + n'))) := by
  constructor
  · constructor
    · intro hnone
      by_contra hcon
      push_neg at hcon
      obtain ⟨hc1, hc2⟩ := hcon
      rw [writei_some ip src off n hsz (by omega) (by omega)] at hnone
      exact absurd hnone (by simp)
    · intro hc
      unfold writei
      rw [if_pos]
      rcases hc with hc | hc
      · exact Or.inl hc
      · exact Or.inr ((u32_wrap_iff off n hoff hn).mpr hc)
  · intro h1 h2
    refine ⟨min n (MAXFILE * BSIZE - off), rfl, ?_, writei_some ip src off n hsz h1 h2⟩
    have : off ≤ MAXFILE * BSIZE := le_trans h1 hsz
    omega

/-- Claim C8: a successful `writei` whose clamped byte range lies entirely
within the current size leaves the inode's size unchanged and does not persist
the inode record (`iupdate` is not called). -/
theorem writei_frame (ip : CInode) (src : Nat → Nat) (off n : Nat)
    (hsz : ip.size ≤ MAXFILE * BSIZE) (h1 : off ≤ ip.size) (h2 : off + n < U32)
    (hin : off + min n (MAXFILE * BSIZE - off) ≤ ip.size) :
    ∃ data', writei ip src off n =
      some (min n (MAXFILE * BSIZE - off), ⟨ip.size, data'⟩, false) := by
  refine ⟨fun a => if off ≤ a ∧ a < off + min n (MAXFILE * BSIZE - off) then
      src (a - off) else ip.data a, ?_⟩
  rw [writei_some ip src off n hsz h1 h2, if_neg (by omega)]
  have hne : ¬ ip.size < off + min n (MAXFILE * BSIZE - off) := by omega
  simp [hne]

/-- Claim C4: for a non-device inode, `readi` fails iff the offset exceeds the
current size or the `uint` sum `off + n` wraps; otherwise it returns exactly
`min n (size - off)` bytes, copying that many content bytes starting at the
offset. -/
theorem readi_spec (ip : CInode) (off n : Nat) (hoff : off < U32) (hn : n < U32) :
    (readi ip off n = none ↔ (ip.size < off ∨ U32 ≤ off + n)) ∧
    (off ≤ ip.size → off + n < U32 →
      readi ip off n = some (min n (ip.size - off),
        (List.range (min n (ip.size - off))).map fun k => ip.data (off + k))) := by
  have key : (ip.size < off ∨ (off + n) % U32 < off) ↔
      (ip.size < off ∨ U32 ≤ off + n) := by
    constructor
    · rintro (h | h)
      · exact Or.inl h
      · exact Or.inr ((u32_wrap_iff off n hoff hn).mp h)
    · rintro (h | h)
      · exact Or.inl h
      · exact Or.inr ((u32_wrap_iff off n hoff hn).mpr h)
  constructor
  · unfold readi
    by_cases hc : ip.size < off ∨ (off + n) % U32 < off
    · rw [if_pos hc]
      simp [key.mp hc]
    · rw [if_neg hc]
      constructor
      · intro habs; exact absurd habs (by simp)
      · intro h; exact absurd (key.mpr h) hc
  · intro h1 h2
    unfold readi
    have hmod : (off + n) % U32 = off + n := Nat.mod_eq_of_lt h2
    rw [if_neg (by rw [hmod]; omega)]
    have hn' : (if ip.size < (off + n) % U32 then ip.size - off else n)
        = min n (ip.size - off) := by
      rw [hmod]
      by_cases hc : ip.size < off + n
      · rw [if_pos hc]; omega
      · rw [if_neg hc]; omega
    rw [hn', readLoop_eq]

/-- Witness for `writei_spec` at a concrete inode, source, offset and count. -/
theorem writei_spec_witness :
    (writei ⟨100, fun _ => 7⟩ (fun _ => 9) 0 5 = none ↔
      ((100 : Nat) < 0 ∨ U32 ≤ 0 + 5)) ∧
    ((0 : Nat) ≤ 100 → 0 + 5 < U32 →
      ∃ n', n' = min 5 (MAXFILE * BSIZE - 0) ∧ 0 + n' ≤ MAXFILE * BSIZE ∧
        writei ⟨100, fun _ => 7⟩ (fun _ => 9) 0 5 =
          some (n', ⟨if (100 : Nat) < 0 + n' then 0 + n' else 100,
            fun a => if 0 ≤ a ∧ a < 0 + n' then (fun _ => 9 : Nat → Nat) (a - 0)
              else (fun _ => 7 : Nat → Nat) a⟩,
            decide ((100 : Nat) < 0 + n'))) :=
  writei_spec ⟨100, fun _ => 7⟩ (fun _ => 9) 0 5 (by decide) (by decide) (by decide)

/-- Witness for `writei_frame` at a concrete inode, source, offset and count. -/
theorem writei_frame_witness :
    ∃ data', writei ⟨100, fun _ => 7⟩ (fun _ => 9) 2 5 =
      some (min 5 (MAXFILE * BSIZE - 2), ⟨100, data'⟩, false) :=
  writei_frame ⟨100, fun _ => 7⟩ (fun _ => 9) 2 5 (by decide) (by decide) (by decide)
    (by decide)

/-- Witness for `readi_spec` at a concrete inode, offset and count. -/
theorem readi_spec_witness :
    (readi ⟨100, fun _ => 7⟩ 0 5 = none ↔ ((100 : Nat) < 0 ∨ U32 ≤ 0 + 5)) ∧
    ((0 : Nat) ≤ 100 → 0 + 5 < U32 →
      readi ⟨100, fun _ => 7⟩ 0 5 = some (min 5 (100 - 0),
        (List.range (min 5 (100 - 0))).map fun k => (fun _ => 7 : Nat → Nat) (0 + k))) :=
  readi_spec ⟨100, fun _ => 7⟩ 0 5 (by decide) (by decide)

/-! ## Directories (`dirlookup`, `dirlink`)

A directory's content is the sequence of `direntSize`-byte records; the entry
with index `k` sits at byte offset `direntSize * k`.  Names are byte lists (C
strings, terminator implicit at the end of the list); the entry's name field
is a `DIRSIZ`-byte array.  `dirlookup`'s block-by-block loop visits the
records in increasing offset order, and `dirlink`'s free-slot scan reads the
records through `readi` in the same order, so both are modelled as scans over
the record list. -/

/-- Whether `strncmp(s, t, n) == 0`: compare byte by byte, stopping early at a
matching 0 byte (C string end) or after `n` bytes; bytes past the end of a
list read as 0. -/
def strncmpEq : List Nat → List Nat → Nat → Bool
  | _, _, 0 => true
  | s, t, n + 1 =>
    if s.headD 0 ≠ t.headD 0 then false
    else if s.headD 0 = 0 then true
    else strncmpEq s.tail t.tail n

/-- `strncpy(dst, src, n)`: copy source bytes until the source's 0 terminator,
then pad with 0 bytes up to length `n`. -/
def strncpyF : List Nat → Nat → List Nat
  | _, 0 => []
  | s, n + 1 =>
    if s.headD 0 = 0 then List.replicate (n + 1) 0
    else s.headD 0 :: strncpyF s.tail n

/-- `namecmp(name, strncpy(name)) == 0`: a name always matches its own
truncated-and-padded copy in a directory entry's name field. -/
theorem strncmpEq_strncpyF : ∀ n s, strncmpEq s (strncpyF s n) n = true := by
  intro n
  induction n with
  | zero => intro s; rfl
  | succ n ih =>
    intro s
    rw [strncpyF, strncmpEq]
    by_cases h : s.headD 0 = 0
    · rw [if_pos h]
      have hrep : (List.replicate (n + 1) 0).headD 0 = 0 := by
        rw [List.replicate_succ]; rfl
      rw [hrep, h]
      simp
    · rw [if_neg h]
      simp only [List.headD_cons, List.tail_cons]
      rw [if_neg (by simp), if_neg h]
      exact ih s.tail

/-- A directory entry record (`struct dirent`): inode number plus the
`DIRSIZ`-byte name field. -/
structure Dirent where
  inum : Nat
  name : List Nat

/-- A directory inode as the directory layer sees it: the type tag and the
content as a list of entry records. -/
structure DirInode where
  type : Nat
  ents : List Dirent

/-- Result of `dirlookup`: the `panic("dirlookup not DIR")` halt, no match
(`return 0`), or a match with its inode number and byte offset. -/
inductive LookupRes where
  | panic
  | notFound
  | found (inum off : Nat)
deriving DecidableEq

/-- The scan loop of `dirlookup`: entries in offset order, skipping entries
with inode number 0, returning the first whose name matches under
`namecmp = strncmp(·, ·, DIRSIZ)` together with its byte offset. -/
def dlkScan (name : List Nat) : List Dirent → Nat → Option (Nat × Nat)
  | [], _ => none
  | e :: rest, off =>
    if e.inum ≠ 0 ∧ strncmpEq name e.name DIRSIZ = true then some (e.inum, off)
    else dlkScan name rest (off + direntSize)

/-- `dirlookup(dp, name, poff)`: panic if `dp` is not a directory; otherwise
scan the entries for the first non-free name match. -/
def dirlookup (dp : DirInode) (name : List Nat) : LookupRes :=
  if dp.type ≠ T_DIR then .panic
  else match dlkScan name dp.ents 0 with
    | some (inum, off) => .found inum off
    | none => .notFound

/-- Result of `dirlink`: a propagated panic, the `-1` duplicate-name failure,
or success with the updated directory and the byte offset written. -/
inductive LinkRes where
  | panic
  | err
  | ok (dp : DirInode) (off : Nat)

/-- The free-slot scan of `dirlink`: index of the first entry record with
inode number 0, or the number of entries (the end of the directory,
`off = dp->size`) when none is free. -/
def firstFreeIdx : List Dirent → Nat
  | [] => 0
  | e :: rest => if e.inum = 0 then 0 else firstFreeIdx rest + 1

/-- `dirlink(dp, name, inum)`: fail if the name is already present; otherwise
write the `(strncpy'd name, inum)` record over the first free entry slot, or
append it at the end of the directory if no slot is free. -/
def dirlink (dp : DirInode) (name : List Nat) (inum : Nat) : LinkRes :=
  match dirlookup dp name with
  | .panic => .panic
  | .found _ _ => .err
  | .notFound =>
    if firstFreeIdx dp.ents < dp.ents.length then
      .ok ⟨dp.type, dp.ents.set (firstFreeIdx dp.ents) ⟨inum, strncpyF name DIRSIZ⟩⟩
        (direntSize * firstFreeIdx dp.ents)
    else
      .ok ⟨dp.type, dp.ents ++ [⟨inum, strncpyF name DIRSIZ⟩]⟩
        (direntSize * firstFreeIdx dp.ents)

/-! ### Properties of the directory scans -/

/-- A free-slot scan result is at most the entry count. -/
theorem firstFreeIdx_le_length : ∀ ents : List Dirent, firstFreeIdx ents ≤ ents.length := by
  intro ents
  induction ents with
  | nil => simp [firstFreeIdx]
  | cons e rest ih =>
    rw [firstFreeIdx]
    by_cases h : e.inum = 0
    · rw [if_pos h]; simp
    · rw [if_neg h]; simpa using ih

/-- Every entry before the first free slot is occupied. -/
theorem firstFreeIdx_occupied : ∀ (ents : List Dirent) (k : Nat),
    k < firstFreeIdx ents → (ents.getD k ⟨1, []⟩).inum ≠ 0 := by
  intro ents
  induction ents with
  | nil => intro k hk; rw [firstFreeIdx] at hk; omega
  | cons e rest ih =>
    intro k hk
    rw [firstFreeIdx] at hk
    by_cases h : e.inum = 0
    · rw [if_pos h] at hk; omega
    · rw [if_neg h] at hk
      cases k with
      | zero => simpa [List.getD_cons_zero] using h
      | succ k =>
        rw [List.getD_cons_succ]
        exact ih k (by omega)

/-- When the first free slot is inside the directory, its entry is free. -/
theorem firstFreeIdx_free : ∀ ents : List Dirent, firstFreeIdx ents < ents.length →
    (ents.getD (firstFreeIdx ents) ⟨1, []⟩).inum = 0 := by
  intro ents
  induction ents with
  | nil => intro h; simp [firstFreeIdx] at h
  | cons e rest ih =>
    intro h
    rw [firstFreeIdx]
    by_cases he : e.inum = 0
    · rw [if_pos he, List.getD_cons_zero]; exact he
    · rw [if_neg he, List.getD_cons_succ]
      apply ih
      rw [firstFreeIdx, if_neg he] at h
      simpa using h

/-- A failed lookup scan means no entry is occupied with a matching name. -/
theorem dlkScan_none (name : List Nat) : ∀ (ents : List Dirent) (off : Nat),
    dlkScan name ents off = none →
    ∀ k, k < ents.length → ¬((ents.getD k ⟨1, []⟩).inum ≠ 0 ∧
      strncmpEq name (ents.getD k ⟨1, []⟩).name DIRSIZ = true) := by
  intro ents
  induction ents with
  | nil => intro off _ k hk; simp at hk
  | cons e rest ih =>
    intro off h k hk
    rw [dlkScan] at h
    by_cases hm : e.inum ≠ 0 ∧ strncmpEq name e.name DIRSIZ = true
    · rw [if_pos hm] at h; exact absurd h (by simp)
    · rw [if_neg hm] at h
      cases k with
      | zero => simpa [List.getD_cons_zero] using hm
      | succ k =>
        rw [List.getD_cons_succ]
        exact ih (off + direntSize) h k (by simpa using hk)

/-- The lookup scan returns the first occupied matching entry, at byte offset
`off0 + direntSize * index`. -/
theorem dlkScan_found (name : List Nat) : ∀ (ents : List Dirent) (off0 i : Nat),
    i < ents.length →
    (∀ k, k < i → ¬((ents.getD k ⟨1, []⟩).inum ≠ 0 ∧
      strncmpEq name (ents.getD k ⟨1, []⟩).name DIRSIZ = true)) →
    ((ents.getD i ⟨1, []⟩).inum ≠ 0 ∧
      strncmpEq name (ents.getD i ⟨1, []⟩).name DIRSIZ = true) →
    dlkScan name ents off0 = some ((ents.getD i ⟨1, []⟩).inum, off0 + direntSize * i) := by
  intro ents
  induction ents with
  | nil => intro off0 i hi _ _; simp at hi
  | cons e rest ih =>
    intro off0 i hi hpre hmatch
    rw [dlkScan]
    cases i with
    | zero =>
      rw [List.getD_cons_zero] at hmatch ⊢
      rw [if_pos hmatch]
      simp
    | succ i =>
      have h0 : ¬(e.inum ≠ 0 ∧ strncmpEq name e.name DIRSIZ = true) := by
        have := hpre 0 (by omega)
        simpa [List.getD_cons_zero] using this
      rw [if_neg h0]
      rw [List.getD_cons_succ] at hmatch ⊢
      have hrec := ih (off0 + direntSize) i (by simpa using hi)
        (fun k hk => by
          have := hpre (k + 1) (by omega)
          simpa [List.getD_cons_succ] using this) hmatch
      rw [hrec, show off0 + direntSize + direntSize * i = off0 + direntSize * (i + 1) by ring]

/-- `getD` after `set` at a different index. -/
theorem getD_set_ne (de d : Dirent) : ∀ (l : List Dirent) (i k : Nat), k ≠ i →
    (l.set i de).getD k d = l.getD k d := by
  intro l
  induction l with
  | nil => intro i k _; simp
  | cons e rest ih =>
    intro i k hk
    cases i with
    | zero =>
      cases k with
      | zero => omega
      | succ k => simp [List.set]
    | succ i =>
      cases k with
      | zero => simp [List.set]
      | succ k =>
        simp only [List.set, List.getD_cons_succ]
        exact ih i k (by omega)

/-- `getD` after `set` at the written index. -/
theorem getD_set_self (de d : Dirent) : ∀ (l : List Dirent) (i : Nat), i < l.length →
    (l.set i de).getD i d = de := by
  intro l
  induction l with
  | nil => intro i hi; simp at hi
  | cons e rest ih =>
    intro i hi
    cases i with
    | zero => simp [List.set]
    | succ i =>
      simp only [List.set, List.getD_cons_succ]
      exact ih i (by simpa using hi)

/-- `getD` of an appended entry at the old length. -/
theorem getD_append_self (de d : Dirent) : ∀ l : List Dirent,
    (l ++ [de]).getD l.length d = de := by
  intro l
  induction l with
  | nil => simp
  | cons e rest ih =>
    simp only [List.cons_append, List.length_cons, List.getD_cons_succ]
    exact ih

/-- `getD` of an append below the old length. -/
theorem getD_append_lt (de d : Dirent) : ∀ (l : List Dirent) (k : Nat), k < l.length →
    (l ++ [de]).getD k d = l.getD k d := by
  intro l
  induction l with
  | nil => intro k hk; simp at hk
  | cons e rest ih =>
    intro k hk
    cases k with
    | zero => simp
    | succ k =>
      simp only [List.cons_append, List.getD_cons_succ]
      exact ih k (by simpa using hk)

/-- Claim C9: calling `dirlookup` on an inode whose type is not `T_DIR` is the
fatal `panic("dirlookup not DIR")`, not a not-found / failure return. -/
theorem dirlookup_not_dir_panics (dp : DirInode) (name : List Nat)
    (h : dp.type ≠ T_DIR) : dirlookup dp name = .panic := by
  unfold dirlookup
  rw [if_pos h]

/-- Witness for `dirlookup_not_dir_panics` at a concrete non-directory inode. -/
theorem dirlookup_not_dir_panics_witness :
    dirlookup ⟨2, []⟩ [102, 111, 111] = .panic :=
  dirlookup_not_dir_panics ⟨2, []⟩ [102, 111, 111] (by decide)

/-- Claim C5: `dirlink` fails when the name is already present; otherwise it
writes the entry at the first free slot (every earlier slot is occupied, and
the chosen slot — if inside the directory — is an entry whose inode number is
0, so a cleared entry is reused), or appends past the end when no slot is
free, and afterwards `dirlookup` of that name returns the linked inode number
at the written byte offset. -/
theorem dirlink_spec (dp : DirInode) (name : List Nat) (inum : Nat)
    (hdir : dp.type = T_DIR) (hinum : inum ≠ 0) :
    (∀ j o, dirlookup dp name = .found j o → dirlink dp name inum = .err) ∧
    (dirlookup dp name = .notFound →
      ∃ dp', dirlink dp name inum = .ok dp' (direntSize * firstFreeIdx dp.ents) ∧
        (∀ k, k < firstFreeIdx dp.ents → (dp.ents.getD k ⟨1, []⟩).inum ≠ 0) ∧
        (firstFreeIdx dp.ents < dp.ents.length →
          (dp.ents.getD (firstFreeIdx dp.ents) ⟨1, []⟩).inum = 0) ∧
        dirlookup dp' name = .found inum (direntSize * firstFreeIdx dp.ents)) := by
  constructor
  · intro j o hfound
    unfold dirlink
    rw [hfound]
  · intro hnf
    have hscan : dlkScan name dp.ents 0 = none := by
      unfold dirlookup at hnf
      rw [if_neg (by simp [hdir])] at hnf
      rcases hs : dlkScan name dp.ents 0 with _ | p
      · rfl
      · rw [hs] at hnf; cases hnf
    have hnomatch := dlkScan_none name dp.ents 0 hscan
    by_cases hlt : firstFreeIdx dp.ents < dp.ents.length
    · refine ⟨⟨dp.type, dp.ents.set (firstFreeIdx dp.ents) ⟨inum, strncpyF name DIRSIZ⟩⟩,
        ?_, fun k hk => firstFreeIdx_occupied dp.ents k hk, fun _ => firstFreeIdx_free dp.ents hlt, ?_⟩
      · unfold dirlink
        rw [hnf, if_pos hlt]
      · unfold dirlookup
        rw [if_neg (by simp [hdir])]
        have hfound := dlkScan_found name
          (dp.ents.set (firstFreeIdx dp.ents) ⟨inum, strncpyF name DIRSIZ⟩) 0
          (firstFreeIdx dp.ents)
          (by simpa using hlt)
          (fun k hk => by
            rw [getD_set_ne _ _ _ _ _ (by omega)]
            exact hnomatch k (by omega))
          (by
            rw [getD_set_self _ _ _ _ hlt]
            exact ⟨hinum, strncmpEq_strncpyF DIRSIZ name⟩)
        rw [getD_set_self _ _ _ _ hlt] at hfound
        rw [hfound]
        simp
    · have hlen : firstFreeIdx dp.ents = dp.ents.length := by
        have := firstFreeIdx_le_length dp.ents
        omega
      refine ⟨⟨dp.type, dp.ents ++ [⟨inum, strncpyF name DIRSIZ⟩]⟩,
        ?_, fun k hk => firstFreeIdx_occupied dp.ents k hk, fun hc => absurd hc hlt, ?_⟩
      · unfold dirlink
        rw [hnf, if_neg hlt]
      · unfold dirlookup
        rw [if_neg (by simp [hdir])]
        have hfound := dlkScan_found name
          (dp.ents ++ [⟨inum, strncpyF name DIRSIZ⟩]) 0 (firstFreeIdx dp.ents)
          (by simp [hlen])
          (fun k hk => by
            rw [getD_append_lt _ _ _ _ (by omega)]
            exact hnomatch k (by omega))
          (by
            rw [hlen, getD_append_self]
            exact ⟨hinum, strncmpEq_strncpyF DIRSIZ name⟩)
        rw [hlen, getD_append_self] at hfound
        rw [← hlen] at hfound
        rw [hfound]
        simp

/-- Witness for `dirlink_spec`: a concrete directory with an occupied entry, a
cleared (reusable) entry, and a fresh name. -/
theorem dirlink_spec_witness :
    (∀ j o, dirlookup ⟨T_DIR, [⟨7, strncpyF [97] DIRSIZ⟩, ⟨0, strncpyF [98] DIRSIZ⟩]⟩
        [102, 111, 111] = .found j o →
      dirlink ⟨T_DIR, [⟨7, strncpyF [97] DIRSIZ⟩, ⟨0, strncpyF [98] DIRSIZ⟩]⟩
        [102, 111, 111] 5 = .err) ∧
    (dirlookup ⟨T_DIR, [⟨7, strncpyF [97] DIRSIZ⟩, ⟨0, strncpyF [98] DIRSIZ⟩]⟩
        [102, 111, 111] = .notFound →
      ∃ dp', dirlink ⟨T_DIR, [⟨7, strncpyF [97] DIRSIZ⟩, ⟨0, strncpyF [98] DIRSIZ⟩]⟩
          [102, 111, 111] 5 =
          .ok dp' (direntSize *
            firstFreeIdx [⟨7, strncpyF [97] DIRSIZ⟩, ⟨0, strncpyF [98] DIRSIZ⟩]) ∧
        (∀ k, k < firstFreeIdx [⟨7, strncpyF [97] DIRSIZ⟩, ⟨0, strncpyF [98] DIRSIZ⟩] →
          (([⟨7, strncpyF [97] DIRSIZ⟩, ⟨0, strncpyF [98] DIRSIZ⟩] :
            List Dirent).getD k ⟨1, []⟩).inum ≠ 0) ∧
        (firstFreeIdx [⟨7, strncpyF [97] DIRSIZ⟩, ⟨0, strncpyF [98] DIRSIZ⟩] <
            ([⟨7, strncpyF [97] DIRSIZ⟩, ⟨0, strncpyF [98] DIRSIZ⟩] : List Dirent).length →
          (([⟨7, strncpyF [97] DIRSIZ⟩, ⟨0, strncpyF [98] DIRSIZ⟩] :
            List Dirent).getD
            (firstFreeIdx [⟨7, strncpyF [97] DIRSIZ⟩, ⟨0, strncpyF [98] DIRSIZ⟩])
            ⟨1, []⟩).inum = 0) ∧
        dirlookup dp' [102, 111, 111] = .found 5 (direntSize *
          firstFreeIdx [⟨7, strncpyF [97] DIRSIZ⟩, ⟨0, strncpyF [98] DIRSIZ⟩])) :=
  dirlink_spec ⟨T_DIR, [⟨7, strncpyF [97] DIRSIZ⟩, ⟨0, strncpyF [98] DIRSIZ⟩]⟩
    [102, 111, 111] 5 rfl (by decide)

/-! ## Path resolution (`skipelem`, `namex`)

Paths are byte lists (C strings; the terminator is the end of the list, and an
explicit 0 byte also terminates). -/

/-- The separator byte `'/'`. -/
def SLASH : Nat := 47

/-- The name-buffer write of `skipelem` for a component of bytes `comp`:
`if(len >= DIRSIZ) memmove(name, s, DIRSIZ); else { memmove(name, s, len);
name[len] = 0; }` — the bytes written and whether the 0 terminator was
written. -/
def skipelemName (comp : List Nat) : List Nat × Bool :=
  if DIRSIZ ≤ comp.length then (comp.take DIRSIZ, false) else (comp, true)

/-- The next path component: after skipping leading slashes, the run of bytes
up to the next slash or terminator. -/
def pathComp (path : List Nat) : List Nat :=
  (path.dropWhile fun c => c = SLASH).takeWhile fun b => ¬(b = SLASH) ∧ ¬(b = 0)

/-- `skipelem(path, name)`: skip leading slashes; return `0` (`none`) when the
path is exhausted; otherwise copy the next component into the name buffer
(`skipelemName`), skip the component and the following slashes, and return the
remainder.  Result: `((name bytes, 0-terminator written?), remainder)`. -/
def skipelem (path : List Nat) : Option ((List Nat × Bool) × List Nat) :=
  match path.dropWhile (fun c => c = SLASH) with
  | [] => none
  | c :: p2 =>
    if c = 0 then none
    else
      some (skipelemName ((c :: p2).takeWhile fun b => ¬(b = SLASH) ∧ ¬(b = 0)),
        ((c :: p2).drop
            (((c :: p2).takeWhile fun b => ¬(b = SLASH) ∧ ¬(b = 0)).length)).dropWhile
          fun c => c = SLASH)

/-- Claim C10: when the next component has length `≥ DIRSIZ`, `skipelem`
copies exactly `DIRSIZ` of its bytes into the name buffer and writes no 0
terminator (including length exactly `DIRSIZ`); a shorter component is copied
whole and 0-terminated. -/
theorem skipelem_name_spec (path : List Nat) (nm : List Nat) (term : Bool)
    (rest : List Nat) (h : skipelem path = some ((nm, term), rest)) :
    (DIRSIZ ≤ (pathComp path).length →
      nm = (pathComp path).take DIRSIZ ∧ nm.length = DIRSIZ ∧ term = false) ∧
    ((pathComp path).length < DIRSIZ →
      nm = pathComp path ∧ term = true) := by
  unfold skipelem at h
  rcases hdw : path.dropWhile (fun c => c = SLASH) with _ | ⟨c, p2⟩ <;> rw [hdw] at h <;>
    dsimp only at h
  · exact absurd h (by simp)
  by_cases hc : c = 0
  · rw [if_pos hc] at h; exact absurd h (by simp)
  rw [if_neg hc] at h
  have hcomp : pathComp path = (c :: p2).takeWhile fun b => ¬(b = SLASH) ∧ ¬(b = 0) := by
    rw [pathComp, hdw]
  simp only [Option.some.injEq] at h
  have h1 : skipelemName ((c :: p2).takeWhile fun b => ¬(b = SLASH) ∧ ¬(b = 0))
      = (nm, term) := congrArg Prod.fst h
  rw [skipelemName] at h1
  constructor
  · intro hlong
    rw [hcomp] at hlong
    rw [if_pos hlong] at h1
    cases h1
    refine ⟨by rw [hcomp], ?_, rfl⟩
    rw [List.length_take]
    omega
  · intro hshort
    rw [hcomp] at hshort
    rw [if_neg (by omega)] at h1
    cases h1
    exact ⟨by rw [hcomp], rfl⟩

/-- Witness for `skipelem_name_spec`: a path whose first component is exactly
`DIRSIZ` bytes long. -/
theorem skipelem_name_spec_witness :
    (DIRSIZ ≤ (pathComp [97, 97, 97, 97, 97, 97, 97, 97, 97, 97, 97, 97, 97, 97, 47, 98]).length →
      [97, 97, 97, 97, 97, 97, 97, 97, 97, 97, 97, 97, 97, 97] =
        (pathComp [97, 97, 97, 97, 97, 97, 97, 97, 97, 97, 97, 97, 97, 97, 47, 98]).take DIRSIZ ∧
      ([97, 97, 97, 97, 97, 97, 97, 97, 97, 97, 97, 97, 97, 97] : List Nat).length = DIRSIZ ∧
      false = false) ∧
    ((pathComp [97, 97, 97, 97, 97, 97, 97, 97, 97, 97, 97, 97, 97, 97, 47, 98]).length < DIRSIZ →
      [97, 97, 97, 97, 97, 97, 97, 97, 97, 97, 97, 97, 97, 97] =
        pathComp [97, 97, 97, 97, 97, 97, 97, 97, 97, 97, 97, 97, 97, 97, 47, 98] ∧
      false = true) :=
  skipelem_name_spec [97, 97, 97, 97, 97, 97, 97, 97, 97, 97, 97, 97, 97, 97, 47, 98]
    [97, 97, 97, 97, 97, 97, 97, 97, 97, 97, 97, 97, 97, 97] false [98] (by decide)

/-- `dropWhile` never lengthens a list. -/
theorem length_dropWhile_le' (p : Nat → Bool) : ∀ l : List Nat,
    (l.dropWhile p).length ≤ l.length := by
  intro l
  induction l with
  | nil => simp
  | cons a l ih =>
    rw [List.dropWhile_cons]
    by_cases hp : p a
    · rw [if_pos hp]
      simp only [List.length_cons]
      omega
    · rw [if_neg hp]

/-- The head of a `dropWhile` result falsifies the predicate. -/
theorem dropWhile_head_false (p : Nat → Bool) : ∀ (l : List Nat) (c : Nat) (rest : List Nat),
    l.dropWhile p = c :: rest → p c = false := by
  intro l
  induction l with
  | nil => intro c rest h; simp [List.dropWhile] at h
  | cons a l ih =>
    intro c rest h
    rw [List.dropWhile_cons] at h
    by_cases hp : p a
    · rw [if_pos hp] at h; exact ih c rest h
    · rw [if_neg hp] at h
      cases h
      simpa using hp

/-- `skipelem` strictly shortens the path when it yields a component. -/
theorem skipelem_rest_lt (path : List Nat) (nb : List Nat × Bool) (rest : List Nat)
    (h : skipelem path = some (nb, rest)) : rest.length < path.length := by
  unfold skipelem at h
  rcases hdw : path.dropWhile (fun c => c = SLASH) with _ | ⟨c, p2⟩ <;> rw [hdw] at h <;>
    dsimp only at h
  · exact absurd h (by simp)
  by_cases hc : c = 0
  · rw [if_pos hc] at h; exact absurd h (by simp)
  rw [if_neg hc] at h
  simp only [Option.some.injEq, Prod.mk.injEq] at h
  obtain ⟨-, hrest⟩ := h
  have hslash : ¬(c = SLASH) := by
    have := dropWhile_head_false (fun c => c = SLASH) path c p2 hdw
    simpa using this
  have htake : ((c :: p2).takeWhile fun b => ¬(b = SLASH) ∧ ¬(b = 0)).length =
      1 + ((p2.takeWhile fun b => ¬(b = SLASH) ∧ ¬(b = 0)).length) := by
    rw [List.takeWhile_cons, if_pos (by simp [hslash, hc])]
    simp [Nat.add_comm]
  have hlen1 : (c :: p2).length ≤ path.length := by
    rw [← hdw]
    exact length_dropWhile_le' _ path
  have hlen2 : rest.length ≤
      ((c :: p2).drop (((c :: p2).takeWhile fun b => ¬(b = SLASH) ∧ ¬(b = 0)).length)).length := by
    rw [← hrest]
    exact length_dropWhile_le' _ _
  rw [List.length_drop] at hlen2
  simp only [List.length_cons] at hlen1 hlen2
  omega

/-- The file-system view `namex` walks: each inode's type tag and the
`dirlookup` relation (inode, component name bytes) → child inode.  Keeping it
abstract makes the no-further-resolution facts below hold for every possible
directory content. -/
structure Fs where
  typeOf : Nat → Nat
  look : Nat → List Nat → Option Nat

/-- The loop of `namex(path, nameiparent, name)`:
`while((path = skipelem(path, name)) != 0)` — lock the current inode, fail if
it is not a directory, stop one level early on the last component when
`nameiparent` is set, look the component up, and continue with the child;
after the loop, `nameiparent` is a failure (`return 0`) and otherwise the
current inode is the result. -/
def namexLoop (fs : Fs) (np : Bool) (ip : Nat) (path : List Nat) : Option Nat :=
  match _hs : skipelem path with
  | none => if np then none else some ip
  | some (nb, rest) =>
    if fs.typeOf ip ≠ T_DIR then none
    else if np ∧ rest.headD 0 = 0 then some ip
    else match fs.look ip nb.1 with
      | none => none
      | some nxt => namexLoop fs np nxt rest
termination_by path.length
decreasing_by
  exact skipelem_rest_lt path nb rest _hs

/-- `namex`: start from the root inode on an absolute path, else from the
current working directory, and run the loop. -/
def namex (fs : Fs) (path : List Nat) (np : Bool) (cwd root : Nat) : Option Nat :=
  namexLoop fs np (if path.headD 0 = SLASH then root else cwd) path

/-- Claim C6: (1) whenever the walk is at a non-directory inode and at least
one component remains, `namex`'s loop returns no result — for every possible
`look` relation, i.e. without resolving any further component; (2) one
successful step of the loop rewrites to the loop on the remainder (so failure
at an intermediate inode is the whole resolution's failure); (3) `nameiparent`
resolution of a path with no components at all returns no result. -/
theorem namex_spec :
    (∀ (fs : Fs) (np : Bool) (ip : Nat) (path : List Nat),
      fs.typeOf ip ≠ T_DIR → skipelem path ≠ none →
      namexLoop fs np ip path = none) ∧
    (∀ (fs : Fs) (np : Bool) (ip : Nat) (path : List Nat) (nb : List Nat × Bool)
      (rest : List Nat) (nxt : Nat),
      skipelem path = some (nb, rest) → fs.typeOf ip = T_DIR →
      ¬(np = true ∧ rest.headD 0 = 0) → fs.look ip nb.1 = some nxt →
      namexLoop fs np ip path = namexLoop fs np nxt rest) ∧
    (∀ (fs : Fs) (path : List Nat) (cwd root : Nat),
      skipelem path = none → namex fs path true cwd root = none) := by
  refine ⟨?_, ?_, ?_⟩
  · intro fs np ip path htype hcomp
    rw [namexLoop]
    split
    · rename_i heq
      exact absurd heq hcomp
    · rw [if_pos htype]
  · intro fs np ip path nb rest nxt hs htype hnp hlook
    rw [namexLoop]
    split
    · rename_i heq
      rw [hs] at heq
      cases heq
    · rename_i nb' rest' heq
      rw [hs] at heq
      injection heq with heq'
      cases heq'
      rw [if_neg (by simp [htype]), if_neg hnp, hlook]
  · intro fs path cwd root hs
    unfold namex
    rw [namexLoop]
    split
    · simp
    · rename_i nb rest heq
      rw [hs] at heq
      cases heq

/-- Witness for `namex_spec`: concrete instances of all three conjuncts. -/
theorem namex_spec_witness :
    namexLoop ⟨fun _ => 0, fun _ _ => none⟩ false 1 [97] = none ∧
    namexLoop ⟨fun _ => T_DIR, fun _ _ => some 3⟩ false 1 [97, 47, 98] =
      namexLoop ⟨fun _ => T_DIR, fun _ _ => some 3⟩ false 3 [98] ∧
    namex ⟨fun _ => 0, fun _ _ => none⟩ [47, 47] true 1 1 = none :=
  ⟨namex_spec.1 ⟨fun _ => 0, fun _ _ => none⟩ false 1 [97] (by decide) (by decide),
   namex_spec.2.1 ⟨fun _ => T_DIR, fun _ _ => some 3⟩ false 1 [97, 47, 98]
     ([97], true) [98] 3 (by decide) rfl (by decide) rfl,
   namex_spec.2.2 ⟨fun _ => 0, fun _ _ => none⟩ [47, 47] 1 1 (by decide)⟩

/-! ## Inode cache release (`iput`, `itrunc`, `iupdate`)

The cached inode's in-memory fields plus the on-disk record `drec` that
`iupdate` writes through (`flags` split into the `I_BUSY` and `I_VALID`
bits).  `itrunc` frees the inode's blocks on the `Disk`; a `none` result
models a panic (`"iput busy"`, or `"freeing free block"` from a corrupt
address array inside `itrunc`). -/

/-- The on-disk inode record (`struct dinode`). -/
structure Dinode where
  type : Nat
  major : Nat
  minor : Nat
  nlink : Nat
  size : Nat
  addrs : List Nat

/-- The in-memory cached inode (`struct inode`): reference count, the
`I_BUSY` / `I_VALID` flag bits, the cached copy of the on-disk fields, and the
on-disk record itself. -/
structure MInode where
  ref : Nat
  busy : Bool
  valid : Bool
  type : Nat
  major : Nat
  minor : Nat
  nlink : Nat
  size : Nat
  addrs : List Nat
  drec : Dinode

/-- `iupdate(ip)`: copy the in-memory fields back to the on-disk record. -/
def iupdate (ip : MInode) : MInode :=
  { ip with drec := ⟨ip.type, ip.major, ip.minor, ip.nlink, ip.size, ip.addrs⟩ }

/-- Free, in order, each non-zero block address of a list (`bfree` panics —
`none` — on a double free). -/
def freeList (d : Disk) : List Nat → Option Disk
  | [] => some d
  | a :: rest =>
    if a ≠ 0 then
      match bfree d a with
      | none => none
      | some d' => freeList d' rest
    else freeList d rest

/-- `itrunc(ip)`: free every allocated direct block; if the indirect block is
present, free every block it references and then the indirect block itself;
zero the address array and the size; persist (`iupdate`).  The indirect
block's entries are read (`bread`) after the direct blocks are freed. -/
def itrunc (ip : MInode) (d : Disk) : Option (MInode × Disk) :=
  match freeList d (ip.addrs.take NDIRECT) with
  | none => none
  | some d1 =>
    match (if ip.addrs.getD NDIRECT 0 ≠ 0 then
        match freeList d1
            ((List.range NINDIRECT).map fun j => d1.words (ip.addrs.getD NDIRECT 0) j) with
        | none => none
        | some d2 => bfree d2 (ip.addrs.getD NDIRECT 0)
      else some d1) with
    | none => none
    | some d3 =>
      some (iupdate { ip with addrs := List.replicate (NDIRECT + 1) 0, size := 0 }, d3)

/-- The observable events of one `iput` call, in program order. -/
inductive IputEv where
  | trunc
  | typeReset
  | wake
  | decref
deriving DecidableEq

/-- `iput(ip)`: under the cache lock, if this is the last reference and the
cached copy is valid with link count 0, then (after `panic("iput busy")` if
the inode is busy) mark it busy, truncate, reset the type to 0, persist, clear
the flags and wake waiters — and only then decrement the reference count;
otherwise just decrement.  Returns the final inode, disk, and event trace. -/
def iput (ip : MInode) (d : Disk) : Option (MInode × Disk × List IputEv) :=
  if ip.ref = 1 ∧ ip.valid = true ∧ ip.nlink = 0 then
    if ip.busy then none
    else
      match itrunc { ip with busy := true } d with
      | none => none
      | some (ip1, d1) =>
        some ({ iupdate { ip1 with type := 0 } with
                  busy := false, valid := false, ref := ip1.ref - 1 },
              d1, [.trunc, .typeReset, .wake, .decref])
  else
    some ({ ip with ref := ip.ref - 1 }, d, [.decref])

/-- A successful `itrunc` zeroes the address array and size and persists,
leaving the bookkeeping fields unchanged. -/
theorem itrunc_some (ip : MInode) (d : Disk) (ip1 : MInode) (d1 : Disk)
    (h : itrunc ip d = some (ip1, d1)) :
    ip1 = iupdate { ip with addrs := List.replicate (NDIRECT + 1) 0, size := 0 } := by
  unfold itrunc at h
  rcases h1 : freeList d (ip.addrs.take NDIRECT) with _ | d1' <;> rw [h1] at h <;>
    dsimp only at h
  · cases h
  rcases h2 : (if ip.addrs.getD NDIRECT 0 ≠ 0 then
      match freeList d1'
          ((List.range NINDIRECT).map fun j => d1'.words (ip.addrs.getD NDIRECT 0) j) with
      | none => none
      | some d2 => bfree d2 (ip.addrs.getD NDIRECT 0)
    else some d1') with _ | d3 <;> rw [h2] at h <;> dsimp only at h
  · cases h
  · simp only [Option.some.injEq, Prod.mk.injEq] at h
    exact h.1.symm

/-- Claim C1: every non-panicking `iput` decrements the reference count; when
it releases the last reference of a loaded inode with link count 0, the trace
is exactly one truncation, then one on-disk type reset with persist, then the
busy-state clear and wakeup, then the decrement — so exactly one truncation
and one type reset occur, the inode's content size and address array are
zeroed, the persisted record has type 0, and the busy flag is clear;
otherwise no truncation or type reset occurs and size and on-disk record are
untouched. -/
theorem iput_spec (ip : MInode) (d : Disk) (ip' : MInode) (d' : Disk)
    (tr : List IputEv) (h : iput ip d = some (ip', d', tr)) :
    ip'.ref = ip.ref - 1 ∧
    (ip.ref = 1 ∧ ip.valid = true ∧ ip.nlink = 0 →
      tr = [.trunc, .typeReset, .wake, .decref] ∧
      tr.count .trunc = 1 ∧ tr.count .typeReset = 1 ∧
      ip'.size = 0 ∧ ip'.addrs = List.replicate (NDIRECT + 1) 0 ∧
      ip'.type = 0 ∧ ip'.drec.type = 0 ∧ ip'.drec.size = 0 ∧
      ip'.busy = false ∧ ip'.valid = false) ∧
    (¬(ip.ref = 1 ∧ ip.valid = true ∧ ip.nlink = 0) →
      tr = [.decref] ∧ tr.count .trunc = 0 ∧ tr.count .typeReset = 0 ∧
      ip'.size = ip.size ∧ ip'.drec = ip.drec) := by
  unfold iput at h
  by_cases htrig : ip.ref = 1 ∧ ip.valid = true ∧ ip.nlink = 0
  · rw [if_pos htrig] at h
    by_cases hbusy : ip.busy = true
    · rw [if_pos hbusy] at h; cases h
    · rw [if_neg hbusy] at h
      rcases hit : itrunc { ip with busy := true } d with _ | ⟨ip1, d1⟩ <;> rw [hit] at h
      · cases h
      have hip1 := itrunc_some _ _ _ _ hit
      simp only [Option.some.injEq, Prod.mk.injEq] at h
      obtain ⟨hip', hd', htr⟩ := h
      subst hip1
      refine ⟨?_, fun _ => ?_, fun hc => absurd htrig hc⟩
      · rw [← hip']
        simp [iupdate]
      · refine ⟨htr.symm, by rw [← htr]; decide, by rw [← htr]; decide, ?_, ?_, ?_, ?_, ?_, ?_, ?_⟩
          <;> rw [← hip'] <;> simp [iupdate]
  · rw [if_neg htrig] at h
    simp only [Option.some.injEq, Prod.mk.injEq] at h
    obtain ⟨hip', hd', htr⟩ := h
    refine ⟨by rw [← hip'], fun hc => absurd hc htrig, fun _ => ?_⟩
    refine ⟨htr.symm, by rw [← htr]; decide, by rw [← htr]; decide, by rw [← hip'], by rw [← hip']⟩

/-- The concrete inode used to instantiate `iput_spec`: last reference, valid,
link count 0, not busy, nothing allocated. -/
def iputIp : MInode :=
  ⟨1, false, true, 2, 0, 0, 0, 5, List.replicate (NDIRECT + 1) 0,
    ⟨2, 0, 0, 0, 5, List.replicate (NDIRECT + 1) 0⟩⟩

/-- The inode state `iput` leaves behind for `iputIp`. -/
def iputOut : MInode :=
  ⟨0, false, false, 0, 0, 0, 0, 0, List.replicate (NDIRECT + 1) 0,
    ⟨0, 0, 0, 0, 0, List.replicate (NDIRECT + 1) 0⟩⟩

/-- Evaluating `iput` on the concrete inode. -/
theorem iput_iputIp :
    iput iputIp witnessDisk =
      some (iputOut, witnessDisk, [.trunc, .typeReset, .wake, .decref]) := rfl

/-- Witness for `iput_spec` at the concrete releasing-the-last-reference
inode. -/
theorem iput_spec_witness :
    iputOut.ref = iputIp.ref - 1 ∧
    (iputIp.ref = 1 ∧ iputIp.valid = true ∧ iputIp.nlink = 0 →
      ([.trunc, .typeReset, .wake, .decref] : List IputEv)
          = [.trunc, .typeReset, .wake, .decref] ∧
      ([.trunc, .typeReset, .wake, .decref] : List IputEv).count .trunc = 1 ∧
      ([.trunc, .typeReset, .wake, .decref] : List IputEv).count .typeReset = 1 ∧
      iputOut.size = 0 ∧ iputOut.addrs = List.replicate (NDIRECT + 1) 0 ∧
      iputOut.type = 0 ∧ iputOut.drec.type = 0 ∧ iputOut.drec.size = 0 ∧
      iputOut.busy = false ∧ iputOut.valid = false) ∧
    (¬(iputIp.ref = 1 ∧ iputIp.valid = true ∧ iputIp.nlink = 0) →
      ([.trunc, .typeReset, .wake, .decref] : List IputEv) = [.decref] ∧
      ([.trunc, .typeReset, .wake, .decref] : List IputEv).count .trunc = 0 ∧
      ([.trunc, .typeReset, .wake, .decref] : List IputEv).count .typeReset = 0 ∧
      iputOut.size = iputIp.size ∧ iputOut.drec = iputIp.drec) :=
  iput_spec iputIp witnessDisk iputOut witnessDisk
    [.trunc, .typeReset, .wake, .decref] iput_iputIp

end Xv6
